import Mathlib

/-!
# Verification of the PDF renamer core

A shallow embedding of the matching / rename / undo core of
`Convert_doc_to_PDF.py` (the "PDF Renamer" part of the file), together with
proofs and refutations of the specified properties.

Strings are modelled by Lean `String` (lists of unicode scalar values); the
character classes of Python's regexes (`\w`, `\s`) and `str.lower` are
modelled on the ASCII range via `Char.isAlphanum`, `Char.isWhitespace` and
`Char.toLower`.  Floating point arithmetic is modelled by `ℚ`.
-/

/-! ## Character-level facts used throughout -/

theorem uint32_le_iff_toNat_le (a b : UInt32) : a ≤ b ↔ a.toNat ≤ b.toNat := by
  rfl

theorem char_toNat_ofNat (n : Nat) (h : n.isValidChar) : (Char.ofNat n).toNat = n := by
  rw [Char.ofNat, dif_pos h]
  rfl

theorem char_isUpper_iff (c : Char) :
    c.isUpper = true ↔ 65 ≤ c.toNat ∧ c.toNat ≤ 90 := by
  unfold Char.isUpper
  rw [Bool.and_eq_true, decide_eq_true_iff, decide_eq_true_iff]
  constructor
  · rintro ⟨h1, h2⟩
    exact ⟨(uint32_le_iff_toNat_le 65 c.val).mp h1, (uint32_le_iff_toNat_le c.val 90).mp h2⟩
  · rintro ⟨h1, h2⟩
    exact ⟨(uint32_le_iff_toNat_le 65 c.val).mpr h1, (uint32_le_iff_toNat_le c.val 90).mpr h2⟩

theorem char_isLower_iff (c : Char) :
    c.isLower = true ↔ 97 ≤ c.toNat ∧ c.toNat ≤ 122 := by
  unfold Char.isLower
  rw [Bool.and_eq_true, decide_eq_true_iff, decide_eq_true_iff]
  constructor
  · rintro ⟨h1, h2⟩
    exact ⟨(uint32_le_iff_toNat_le 97 c.val).mp h1, (uint32_le_iff_toNat_le c.val 122).mp h2⟩
  · rintro ⟨h1, h2⟩
    exact ⟨(uint32_le_iff_toNat_le 97 c.val).mpr h1, (uint32_le_iff_toNat_le c.val 122).mpr h2⟩

theorem char_isDigit_iff (c : Char) :
    c.isDigit = true ↔ 48 ≤ c.toNat ∧ c.toNat ≤ 57 := by
  unfold Char.isDigit
  rw [Bool.and_eq_true, decide_eq_true_iff, decide_eq_true_iff]
  constructor
  · rintro ⟨h1, h2⟩
    exact ⟨(uint32_le_iff_toNat_le 48 c.val).mp h1, (uint32_le_iff_toNat_le c.val 57).mp h2⟩
  · rintro ⟨h1, h2⟩
    exact ⟨(uint32_le_iff_toNat_le 48 c.val).mpr h1, (uint32_le_iff_toNat_le c.val 57).mpr h2⟩

theorem char_isWhitespace_iff (c : Char) :
    c.isWhitespace = true ↔ c = ' ' ∨ c = '\t' ∨ c = '\r' ∨ c = '\n' := by
  unfold Char.isWhitespace
  simp only [Bool.or_eq_true, decide_eq_true_iff]
  tauto

theorem char_isAlphanum_iff (c : Char) :
    c.isAlphanum = true ↔
      (65 ≤ c.toNat ∧ c.toNat ≤ 90) ∨ (97 ≤ c.toNat ∧ c.toNat ≤ 122) ∨
      (48 ≤ c.toNat ∧ c.toNat ≤ 57) := by
  unfold Char.isAlphanum Char.isAlpha
  simp only [Bool.or_eq_true, char_isUpper_iff, char_isLower_iff, char_isDigit_iff, or_assoc]

theorem char_ws_toNat (c : Char) (h : c.isWhitespace = true) :
    c.toNat = 32 ∨ c.toNat = 9 ∨ c.toNat = 13 ∨ c.toNat = 10 := by
  rcases (char_isWhitespace_iff c).mp h with rfl | rfl | rfl | rfl
  · exact Or.inl (by decide)
  · exact Or.inr (Or.inl (by decide))
  · exact Or.inr (Or.inr (Or.inl (by decide)))
  · exact Or.inr (Or.inr (Or.inr (by decide)))

theorem char_alphanum_not_ws (c : Char) (h : c.isAlphanum = true) :
    c.isWhitespace = false := by
  rcases Bool.eq_false_or_eq_true c.isWhitespace with hw | hw
  · exfalso
    rcases char_ws_toNat c hw with h32 | h9 | h13 | h10 <;>
      rcases (char_isAlphanum_iff c).mp h with ⟨h1, h2⟩ | ⟨h1, h2⟩ | ⟨h1, h2⟩ <;> omega
  · exact hw

theorem char_toLower_of_upper (c : Char) (h : 65 ≤ c.toNat ∧ c.toNat ≤ 90) :
    (Char.toLower c).toNat = c.toNat + 32 := by
  unfold Char.toLower
  rw [if_pos h]
  exact char_toNat_ofNat (c.toNat + 32) (Or.inl (by omega))

theorem char_toLower_of_not_upper (c : Char) (h : ¬(65 ≤ c.toNat ∧ c.toNat ≤ 90)) :
    Char.toLower c = c := by
  unfold Char.toLower
  rw [if_neg h]

theorem char_toLower_toLower (c : Char) :
    Char.toLower (Char.toLower c) = Char.toLower c := by
  by_cases h : 65 ≤ c.toNat ∧ c.toNat ≤ 90
  · have h1 := char_toLower_of_upper c h
    apply char_toLower_of_not_upper
    omega
  · rw [char_toLower_of_not_upper c h, char_toLower_of_not_upper c h]

theorem char_toLower_alphanum (c : Char) (h : c.isAlphanum = true) :
    (Char.toLower c).isAlphanum = true := by
  by_cases hu : 65 ≤ c.toNat ∧ c.toNat ≤ 90
  · have h1 := char_toLower_of_upper c hu
    rw [char_isAlphanum_iff]
    exact Or.inr (Or.inl (by omega))
  · rw [char_toLower_of_not_upper c hu]
    exact h

theorem char_toLower_ws (c : Char) :
    (Char.toLower c).isWhitespace = c.isWhitespace := by
  by_cases hu : 65 ≤ c.toNat ∧ c.toNat ≤ 90
  · have h1 := char_toLower_of_upper c hu
    have hc : c.isWhitespace = false := by
      rcases Bool.eq_false_or_eq_true c.isWhitespace with hw | hw
      · exfalso; rcases char_ws_toNat c hw with h' | h' | h' | h' <;> omega
      · exact hw
    have hl : (Char.toLower c).isWhitespace = false := by
      rcases Bool.eq_false_or_eq_true (Char.toLower c).isWhitespace with hw | hw
      · exfalso; rcases char_ws_toNat _ hw with h' | h' | h' | h' <;> omega
      · exact hw
    rw [hc, hl]
  · rw [char_toLower_of_not_upper c hu]

/-! ## Text normalizer (`clean_text_for_matching`, lines 229-244)

The Python code is
```
text = text.replace('_', ' ').replace('-', ' ').replace('.', ' ')
cleaned = re.sub(r'[^\w\s]', ' ', text)
cleaned = re.sub(r'\s+', ' ', cleaned).strip().lower()
```
modelled stage by stage: a per-character separator replacement, a
per-character non-word-non-space replacement, collapsing of whitespace runs
to a single space, stripping of leading/trailing whitespace, lowercasing. -/

def sepToSpace (c : Char) : Char :=
  if c = '_' ∨ c = '-' ∨ c = '.' then ' ' else c

def isWordChar (c : Char) : Bool :=
  c.isAlphanum || c == '_'

def nonWordToSpace (c : Char) : Char :=
  if isWordChar c = false ∧ c.isWhitespace = false then ' ' else c

def collapseWsAux : Bool → List Char → List Char
  | _, [] => []
  | prevWs, c :: cs =>
    if c.isWhitespace then
      (if prevWs then collapseWsAux true cs else ' ' :: collapseWsAux true cs)
    else c :: collapseWsAux false cs

def collapseWs (l : List Char) : List Char := collapseWsAux false l

def dropTrailingWs : List Char → List Char
  | [] => []
  | c :: cs =>
    let r := dropTrailingWs cs
    if r = [] ∧ c.isWhitespace then [] else c :: r

def stripChars (l : List Char) : List Char :=
  dropTrailingWs (l.dropWhile Char.isWhitespace)

def cleanChars (l : List Char) : List Char :=
  (stripChars (collapseWs ((l.map sepToSpace).map nonWordToSpace))).map Char.toLower

def clean_text_for_matching (s : String) : String :=
  String.mk (cleanChars s.toList)

/-! ## Tokenizer (`extract_meaningful_words`, lines 247-266)

```
stop_words = {...}
cleaned = clean_text_for_matching(text)
words = re.findall(r'\w+', cleaned.lower())
meaningful_words = [w for w in words if len(w) >= min_length
                    and w not in stop_words and not w.isdigit()]
```
`re.findall(r'\w+', s)` is the list of maximal runs of word characters. -/

def stop_words : List String :=
  ["the", "and", "for", "are", "but", "not", "you", "all", "can", "had", "her", "was",
   "one", "our", "out", "day", "get", "has", "him", "his", "how", "its", "may", "new",
   "now", "old", "see", "two", "way", "who", "boy", "did", "man", "end", "few", "got",
   "let", "put", "say", "she", "too", "use"]

def wordRunsAux : List Char → List Char → List (List Char)
  | acc, [] => if acc = [] then [] else [acc.reverse]
  | acc, c :: cs =>
    if isWordChar c then wordRunsAux (c :: acc) cs
    else if acc = [] then wordRunsAux [] cs
    else acc.reverse :: wordRunsAux [] cs

def wordRuns (l : List Char) : List (List Char) := wordRunsAux [] l

def pyIsDigit (w : String) : Bool :=
  !w.toList.isEmpty && w.toList.all Char.isDigit

def extract_meaningful_words (text : String) (min_length : Nat) : List String :=
  let cleaned := clean_text_for_matching text
  let words := (wordRuns (cleaned.toList.map Char.toLower)).map String.mk
  words.filter fun w =>
    decide (min_length ≤ w.length) && !(stop_words.contains w) && !(pyIsDigit w)

/-! ## Word overlap score (`calculate_word_overlap_score`, lines 269-289)

Python set arithmetic is modelled with `Finset String`; the floats `0.1`,
`0.3`, `1.0` with rationals. -/

def calculate_word_overlap_score (pdf_words doc_words : List String) : ℚ :=
  if pdf_words = [] ∨ doc_words = [] then 0
  else
    let pdf_set := pdf_words.toFinset
    let doc_set := doc_words.toFinset
    let inter := pdf_set ∩ doc_set
    let uni := pdf_set ∪ doc_set
    if uni = ∅ then 0
    else
      let jaccard_score : ℚ := (inter.card : ℚ) / (uni.card : ℚ)
      let match_bonus : ℚ := min ((inter.card : ℚ) * (1 / 10)) (3 / 10)
      min (jaccard_score + match_bonus) 1

/-! ## String similarity (`similarity`, lines 224-226)

`SequenceMatcher(None, a.lower(), b.lower()).ratio()` from `difflib`, with no
junk (both inputs are far shorter than the autojunk limit of 200).  The
matched total is computed by difflib's divide-and-conquer over
`find_longest_match`; the two junk-extension loops of `find_longest_match`
never run when the junk set is empty and are omitted. -/

def fimRow (j2len : Nat → Nat) (i : Nat) :
    List Nat → (Nat → Nat) → Nat × Nat × Nat → ((Nat → Nat) × (Nat × Nat × Nat))
  | [], nj, best => (nj, best)
  | j :: js, nj, best =>
    let k := (if j = 0 then 0 else j2len (j - 1)) + 1
    let nj2 : Nat → Nat := fun x => if x = j then k else nj x
    let best2 := if best.2.2 < k then (i + 1 - k, j + 1 - k, k) else best
    fimRow j2len i js nj2 best2

def fimMain (a b : List Char) (blo bhi : Nat) :
    List Nat → (Nat → Nat) → Nat × Nat × Nat → Nat × Nat × Nat
  | [], _, best => best
  | i :: is, j2len, best =>
    let js := (List.range bhi).filter fun j =>
      decide (blo ≤ j) && (b.getD j ' ' == a.getD i ' ')
    let step := fimRow j2len i js (fun _ => 0) best
    fimMain a b blo bhi is step.1 step.2

def extendLeft (a b : List Char) (alo blo : Nat) :
    Nat → Nat × Nat × Nat → Nat × Nat × Nat
  | 0, best => best
  | fuel + 1, (bi, bj, bs) =>
    if alo < bi ∧ blo < bj ∧ a.getD (bi - 1) ' ' = b.getD (bj - 1) ' ' then
      extendLeft a b alo blo fuel (bi - 1, bj - 1, bs + 1)
    else (bi, bj, bs)

def extendRight (a b : List Char) (ahi bhi : Nat) :
    Nat → Nat × Nat × Nat → Nat × Nat × Nat
  | 0, best => best
  | fuel + 1, (bi, bj, bs) =>
    if bi + bs < ahi ∧ bj + bs < bhi ∧ a.getD (bi + bs) ' ' = b.getD (bj + bs) ' ' then
      extendRight a b ahi bhi fuel (bi, bj, bs + 1)
    else (bi, bj, bs)

def find_longest_match (a b : List Char) (alo ahi blo bhi : Nat) : Nat × Nat × Nat :=
  let best := fimMain a b blo bhi (List.range' alo (ahi - alo)) (fun _ => 0) (alo, blo, 0)
  let best := extendLeft a b alo blo best.1 best
  extendRight a b ahi bhi ahi best

def matchedTotal (a b : List Char) : Nat → Nat → Nat → Nat → Nat → Nat
  | 0, _, _, _, _ => 0
  | fuel + 1, alo, ahi, blo, bhi =>
    let m := find_longest_match a b alo ahi blo bhi
    if m.2.2 = 0 then 0
    else
      m.2.2 + matchedTotal a b fuel alo m.1 blo m.2.1 +
        matchedTotal a b fuel (m.1 + m.2.2) ahi (m.2.1 + m.2.2) bhi

def seqRatio (a b : List Char) : ℚ :=
  let total := a.length + b.length
  if total = 0 then 1
  else 2 * (matchedTotal a b (total + 1) 0 a.length 0 b.length : ℚ) / (total : ℚ)

def similarity (a b : String) : ℚ :=
  seqRatio (a.toList.map Char.toLower) (b.toList.map Char.toLower)

/-! ## Fuzzy word match (`fuzzy_word_match`, lines 292-297), threshold 0.85 -/

def fuzzy_word_match (word1 word2 : String) : Bool :=
  if word1.length < 4 ∨ word2.length < 4 then word1 == word2
  else decide (17 / 20 ≤ similarity word1 word2)

/-! ## Match strategy cascade (`rename_pdfs_with_document_numbers`, lines 374-497)

One loop iteration for a given `(pdf_name, doc_name)` pair either hits the
exact match (and breaks out of the reference loop), offers a scored
candidate to the best-candidate tracking, or offers nothing.  The `elif`
chain of strategies 2-5 is reproduced verbatim. -/

inductive Strategy
  | exact
  | word_overlap
  | substring
  | reverse
  | fuzzy_words
  | high_similarity
  deriving DecidableEq, Repr

inductive PairOutcome
  | exactHit
  | candidate (score : ℚ) (strat : Strategy)
  | noCand
  deriving DecidableEq, Repr

/-- Python's substring containment `needle in hay`. -/
def listContains : List Char → List Char → Bool
  | _, [] => true
  | [], _ :: _ => false
  | h :: t, needle =>
    (decide ((h :: t).take needle.length = needle)) || listContains t needle

def strContains (hay needle : String) : Bool := listContains hay.toList needle.toList

/-- Strategy 3 (lines 419-445): substring / reverse containment, gated by
`len(clean_doc_name) > 8` at the call site. -/
def substringBranch (clean_pdf_name clean_doc_name : String) : PairOutcome :=
  if strContains clean_pdf_name clean_doc_name then
    let overlap_ratio : ℚ :=
      (clean_doc_name.length : ℚ) / (max clean_pdf_name.length clean_doc_name.length : ℚ)
    if 3 / 5 < overlap_ratio then .candidate (overlap_ratio * (4 / 5)) .substring
    else .noCand
  else if strContains clean_doc_name clean_pdf_name ∧ 8 < clean_pdf_name.length then
    let overlap_ratio : ℚ :=
      (clean_pdf_name.length : ℚ) / (max clean_pdf_name.length clean_doc_name.length : ℚ)
    if 3 / 5 < overlap_ratio then .candidate (overlap_ratio * (3 / 4)) .reverse
    else .noCand
  else .noCand

/-- Strategy 4 (lines 448-468): fuzzy word matching.  The inner
`for doc_word ... if fuzzy_word_match: fuzzy_matches += 1; break` counts the
pdf-word positions for which some doc word fuzzy-matches. -/
def fuzzyStrategy (pdf_words doc_words : List String) : Option ℚ :=
  let fuzzy_matches :=
    (pdf_words.filter fun pw => doc_words.any fun dw => fuzzy_word_match pw dw).length
  let fuzzy_score : ℚ := (fuzzy_matches : ℚ) / (max pdf_words.length doc_words.length : ℚ)
  if 3 / 5 < fuzzy_score ∧ 2 ≤ fuzzy_matches then some (fuzzy_score * (7 / 10))
  else none

/-- Strategy 5 (lines 470-482): overall similarity. -/
def highSimBranch (clean_pdf_name clean_doc_name : String) : PairOutcome :=
  let sim_score := similarity clean_pdf_name clean_doc_name
  if 17 / 20 < sim_score ∧ 6 < clean_pdf_name.length ∧ 6 < clean_doc_name.length then
    .candidate (sim_score * (3 / 5)) .high_similarity
  else .noCand

/-- Strategy 4 as a branch outcome: a scored candidate when `fuzzyStrategy`
fires, nothing otherwise. -/
def fuzzyBranch (pdf_words doc_words : List String) : PairOutcome :=
  match fuzzyStrategy pdf_words doc_words with
  | some s => .candidate s .fuzzy_words
  | none => .noCand

/-- One iteration of the reference-entry loop (lines 390-482) for the pair
`(pdf_name, doc_name)`. -/
def evalPair (pdf_name doc_name : String) : PairOutcome :=
  let clean_pdf_name := clean_text_for_matching pdf_name
  let pdf_words := extract_meaningful_words pdf_name 3
  let clean_doc_name := clean_text_for_matching doc_name
  let doc_words := extract_meaningful_words doc_name 3
  if clean_pdf_name = clean_doc_name then .exactHit
  else
    let word_overlap_score := calculate_word_overlap_score pdf_words doc_words
    if 7 / 10 < word_overlap_score ∧ 2 ≤ pdf_words.length ∧ 2 ≤ doc_words.length then
      .candidate word_overlap_score .word_overlap
    else if 8 < clean_doc_name.length then
      substringBranch clean_pdf_name clean_doc_name
    else if 2 ≤ pdf_words.length ∧ 2 ≤ doc_words.length then
      fuzzyBranch pdf_words doc_words
    else highSimBranch clean_pdf_name clean_doc_name

/-! ## Matcher driver (lines 374-497): best-candidate tracking over the
reference list, then the `best_score > 0.5` acceptance gate. -/

inductive MatchResult
  | exactM (name number : String)
  | bestM (name number : String) (strat : Strategy) (score : ℚ)
  | unmatched
  deriving DecidableEq, Repr

def matchFold (pdf_name : String) :
    List (String × String) → ℚ → Option (String × String × Strategy) → MatchResult
  | [], best_score, best =>
    match best with
    | some (best_match, best_doc_number, best_match_type) =>
      if 1 / 2 < best_score then .bestM best_match best_doc_number best_match_type best_score
      else .unmatched
    | none => .unmatched
  | (doc_name, doc_number) :: rest, best_score, best =>
    match evalPair pdf_name doc_name with
    | .exactHit => .exactM doc_name doc_number
    | .candidate s st =>
      if best_score < s then matchFold pdf_name rest s (some (doc_name, doc_number, st))
      else matchFold pdf_name rest best_score best
    | .noCand => matchFold pdf_name rest best_score best

def matchFile (pdf_name : String) (refs : List (String × String)) : MatchResult :=
  matchFold pdf_name refs 0 none

/-! ## Rename executor (lines 540-595)

The filesystem is modelled as the list of (root-relative) paths of the
existing files; candidate files carry their directory prefix and stem, so
`pdf_file.parent / new_filename` and `relative_to(pdf_folder)` become string
concatenations.  `raisesOn` is the environment oracle for
`pdf_file.rename(...)` raising (permission error, lock, race); a rename of a
non-existing source also raises.  Note the source inserts into
`rename_history` *before* attempting the rename. -/

structure PdfFile where
  dir : String
  stem : String
  deriving DecidableEq, Repr

def origRel (f : PdfFile) : String := f.dir ++ f.stem ++ ".pdf"

def newRel (doc_number : String) (f : PdfFile) : String :=
  f.dir ++ doc_number ++ f.stem ++ ".pdf"

/-- Python dict assignment `d[k] = v`: overwrite in place, else append. -/
def updateAssoc (m : List (String × String)) (k v : String) : List (String × String) :=
  if m.any fun p => p.1 == k then m.map fun p => if p.1 == k then (k, v) else p
  else m ++ [(k, v)]

/-- Python `base.update(upd)`. -/
def dictUpdate (base upd : List (String × String)) : List (String × String) :=
  upd.foldl (fun acc p => updateAssoc acc p.1 p.2) base

structure RenState where
  fs : List String
  hist : List (String × String)
  count : Nat
  deriving DecidableEq, Repr

def renameStep (raisesOn : String → Bool) (st : RenState) (m : PdfFile × String) :
    RenState :=
  let new_path := newRel m.2 m.1
  let orig_path := origRel m.1
  if new_path ∈ st.fs then st
  else
    let hist2 := updateAssoc st.hist new_path orig_path
    if orig_path ∈ st.fs ∧ raisesOn orig_path = false then
      { fs := st.fs.erase orig_path ++ [new_path], hist := hist2, count := st.count + 1 }
    else { st with hist := hist2 }

def renamePass (raisesOn : String → Bool) (ms : List (PdfFile × String))
    (fs0 : List String) : RenState :=
  ms.foldl (renameStep raisesOn) ⟨fs0, [], 0⟩

/-- Persisting `rename_history` into `rename_backup.json` (lines 572-593):
only written when the in-memory history is nonempty; merged into the
existing ledger with new keys winning. -/
def persistLedger (existing : Option (List (String × String)))
    (hist : List (String × String)) : Option (List (String × String)) :=
  if hist = [] then existing
  else some (dictUpdate (existing.getD []) hist)

/-! ## Undo executor (`undo_renames`, lines 683-820)

The ledger file is `Option`: `none` means absent.  Revertibility is decided
up front against the initial filesystem; the per-entry conflict check
(`original_path.exists() and original_path != current_path`) is live. -/

structure UndoState where
  fs : List String
  reverted : List String
  skipped : Nat
  deriving DecidableEq, Repr

def undoStep (raisesOn : String → Bool) (st : UndoState) (e : String × String) :
    UndoState :=
  let current_path := e.1
  let original_path := e.2
  if original_path ∈ st.fs ∧ original_path ≠ current_path then
    { st with skipped := st.skipped + 1 }
  else if current_path ∈ st.fs ∧ raisesOn current_path = false then
    { st with fs := st.fs.erase current_path ++ [original_path],
              reverted := st.reverted ++ [current_path] }
  else st

structure UndoOutcome where
  fs : List String
  ledger : Option (List (String × String))
  revertedCount : Nat
  skippedCount : Nat
  deriving DecidableEq, Repr

def undo_renames (raisesOn : String → Bool) (fs0 : List String)
    (ledger0 : Option (List (String × String))) : UndoOutcome :=
  match ledger0 with
  | none => ⟨fs0, none, 0, 0⟩
  | some backup_data =>
    if backup_data = [] then ⟨fs0, some backup_data, 0, 0⟩
    else
      let revertible_files := backup_data.filter fun e => decide (e.1 ∈ fs0)
      if revertible_files = [] then ⟨fs0, some backup_data, 0, 0⟩
      else
        let fin := revertible_files.foldl (undoStep raisesOn) ⟨fs0, [], 0⟩
        let ledger2 :=
          if fin.reverted = [] then some backup_data
          else
            let updated := backup_data.filter fun e => decide (e.1 ∉ fin.reverted)
            if updated = [] then none else some updated
        ⟨fin.fs, ledger2, fin.reverted.length, fin.skipped⟩

/-! ## Claim C1: failed renames and the ledger -/

/-- Claim C1 (code bug demonstration): with a single match whose rename
raises, the file is counted as not renamed (`count = 0`), yet the source
inserts the history entry *before* attempting the rename, so the persisted
ledger contains the key `1a.pdf` although no file with that path exists on
disk at write time — contradicting the claim that a failed rename is
excluded from the ledger update. -/
theorem ledger_contains_failed_rename :
    (renamePass (fun p => p == "a.pdf") [(⟨"", "a"⟩, "1")] ["a.pdf"]).count = 0 ∧
    persistLedger none (renamePass (fun p => p == "a.pdf") [(⟨"", "a"⟩, "1")] ["a.pdf"]).hist
      = some [("1a.pdf", "a.pdf")] ∧
    "1a.pdf" ∉ (renamePass (fun p => p == "a.pdf") [(⟨"", "a"⟩, "1")] ["a.pdf"]).fs := by
  decide

/-! ## Claim C2: tokenizing `"the_new_report.pdf"` -/

/-- Claim C2 (counterexample): the tokenization of `"the_new_report.pdf"` is
not `["new", "report"]` — the stop-word set contains `"new"`. -/
theorem tokenize_the_new_report_ne_claim :
    extract_meaningful_words "the_new_report.pdf" 3 ≠ ["new", "report"] := by
  decide

/-- Claim C2 (amended): with minLength 3 and the implementation's stop-word
set, `"the_new_report.pdf"` tokenizes to `["report", "pdf"]`: `"the"` and
`"new"` are in the stop set, and the extension token `"pdf"` survives the
filters. -/
theorem tokenize_the_new_report_eq :
    extract_meaningful_words "the_new_report.pdf" 3 = ["report", "pdf"] := by
  decide

/-! ## Claim C3: the FuzzyWords matched count -/

/-- Modelled from the claim's words (C3): the matched count as the number of
DISTINCT file tokens that fuzzy-match some reference token, in place of the
occurrence count computed by the source's loop.  For comparison with
`fuzzyStrategy`. -/
def fuzzyStrategyDistinct (pdf_words doc_words : List String) : Option ℚ :=
  let matched :=
    ((pdf_words.filter fun pw => doc_words.any fun dw => fuzzy_word_match pw dw).dedup).length
  let fuzzy_score : ℚ := (matched : ℚ) / (max pdf_words.length doc_words.length : ℚ)
  if 3 / 5 < fuzzy_score ∧ 2 ≤ matched then some (fuzzy_score * (7 / 10)) else none

unseal Rat.inv Rat.mul Rat.add Rat.sub Nat.gcd in
/-- Claim C3 (counterexample): with file tokens `["abc", "abc"]` (duplicates
are retained by the tokenizer) and reference tokens `["abc", "xyz"]`, only
one DISTINCT file token fuzzy-matches, so under the claim's reading no
candidate is recorded; the code counts occurrences and records a candidate
with score `1 * 0.7`, as the cascade on the underlying names confirms. -/
theorem fuzzy_words_distinct_counterexample :
    fuzzyStrategy ["abc", "abc"] ["abc", "xyz"] = some (7 / 10) ∧
    fuzzyStrategyDistinct ["abc", "abc"] ["abc", "xyz"] = none ∧
    evalPair "abc abc" "abc xyz" = .candidate (7 / 10) .fuzzy_words := by
  decide

/-! ## Claim C4: rename / undo round trip -/

def c4_state : RenState :=
  renamePass (fun _ => false) [(⟨"", "3abc"⟩, "9"), (⟨"", "abc"⟩, "3")]
    ["3abc.pdf", "abc.pdf"]

def c4_out : UndoOutcome :=
  undo_renames (fun _ => false) c4_state.fs (persistLedger none c4_state.hist)

/-- Claim C4 (counterexample): two files, both successfully renamed without
collision or error (`count = 2`): `3abc.pdf → 93abc.pdf` and then
`abc.pdf → 3abc.pdf`.  At undo time the original path of the first file is
occupied by the second, so the undo pass skips the first entry: the first
file is not restored to its original relative path `3abc.pdf` and its key
stays in the ledger. -/
theorem round_trip_counterexample :
    c4_state.count = 2 ∧
    ("93abc.pdf", "3abc.pdf") ∈ c4_state.hist ∧
    origRel ⟨"", "3abc"⟩ ∉ c4_out.fs ∧
    c4_out.ledger = some [("93abc.pdf", "3abc.pdf")] ∧
    c4_out.skippedCount = 1 := by
  decide

/-! ## Claim C8: the word overlap score -/

/-- Claim C8: `calculate_word_overlap_score` returns `0` when either
underlying token set is empty, otherwise
`min (jaccard + min (0.1 * |intersection|) 0.3) 1`, and the result always
lies in `[0, 1]`. -/
theorem word_overlap_score_spec (pdf_words doc_words : List String) :
    (pdf_words.toFinset = ∅ ∨ doc_words.toFinset = ∅ →
      calculate_word_overlap_score pdf_words doc_words = 0) ∧
    (pdf_words.toFinset ≠ ∅ → doc_words.toFinset ≠ ∅ →
      calculate_word_overlap_score pdf_words doc_words =
        min (((pdf_words.toFinset ∩ doc_words.toFinset).card : ℚ) /
              ((pdf_words.toFinset ∪ doc_words.toFinset).card : ℚ) +
            min (((pdf_words.toFinset ∩ doc_words.toFinset).card : ℚ) * (1 / 10)) (3 / 10))
          1) ∧
    0 ≤ calculate_word_overlap_score pdf_words doc_words ∧
    calculate_word_overlap_score pdf_words doc_words ≤ 1 := by
  by_cases hAB : pdf_words = [] ∨ doc_words = []
  · have h0 : calculate_word_overlap_score pdf_words doc_words = 0 := by
      unfold calculate_word_overlap_score
      rw [if_pos hAB]
    refine ⟨fun _ => h0, ?_, by rw [h0], by rw [h0]; norm_num⟩
    intro hA hB
    exfalso
    rcases hAB with rfl | rfl
    · exact hA (by simp)
    · exact hB (by simp)
  · push_neg at hAB
    have hA : pdf_words ≠ [] := hAB.1
    have hB : doc_words ≠ [] := hAB.2
    have huni : pdf_words.toFinset ∪ doc_words.toFinset ≠ ∅ := by
      intro h
      rcases Finset.union_eq_empty.mp h with ⟨h1, _⟩
      exact hA ((List.toFinset_eq_empty_iff pdf_words).mp h1)
    have hval : calculate_word_overlap_score pdf_words doc_words =
        min (((pdf_words.toFinset ∩ doc_words.toFinset).card : ℚ) /
              ((pdf_words.toFinset ∪ doc_words.toFinset).card : ℚ) +
            min (((pdf_words.toFinset ∩ doc_words.toFinset).card : ℚ) * (1 / 10)) (3 / 10))
          1 := by
      unfold calculate_word_overlap_score
      rw [if_neg (by tauto), if_neg huni]
    have hnn : (0 : ℚ) ≤
        ((pdf_words.toFinset ∩ doc_words.toFinset).card : ℚ) /
            ((pdf_words.toFinset ∪ doc_words.toFinset).card : ℚ) +
          min (((pdf_words.toFinset ∩ doc_words.toFinset).card : ℚ) * (1 / 10)) (3 / 10) := by
      apply add_nonneg
      · apply div_nonneg <;> positivity
      · apply le_min <;> positivity
    refine ⟨?_, fun _ _ => hval, ?_, ?_⟩
    · rintro (h | h)
      · exact absurd ((List.toFinset_eq_empty_iff pdf_words).mp h) hA
      · exact absurd ((List.toFinset_eq_empty_iff doc_words).mp h) hB
    · rw [hval]
      exact le_min hnn (by norm_num)
    · rw [hval]
      exact min_le_right _ _

/-- Claim C8 (witness): the theorem applied at concrete token lists. -/
theorem word_overlap_score_spec_witness :
    calculate_word_overlap_score ["abcd"] [] = 0 ∧
    0 ≤ calculate_word_overlap_score ["abcd"] ["efgh"] ∧
    calculate_word_overlap_score ["abcd"] ["efgh"] ≤ 1 :=
  ⟨(word_overlap_score_spec ["abcd"] []).1 (Or.inr (by decide)),
   (word_overlap_score_spec ["abcd"] ["efgh"]).2.2.1,
   (word_overlap_score_spec ["abcd"] ["efgh"]).2.2.2⟩

/-- The matched count of the FuzzyWords strategy as the number of file-token
occurrences (counted with multiplicity) that fuzzy-match some reference
token. -/
def fuzzyMatchesCount (pdf_words doc_words : List String) : Nat :=
  pdf_words.countP fun pw => doc_words.any fun dw => fuzzy_word_match pw dw

set_option maxHeartbeats 1000000 in
/-- Claim C3 (amended): when the cascade reaches the FuzzyWords branch (no
exact match, WordOverlap at or below its threshold, normalized reference
name of length at most 8, at least two meaningful tokens on each side), a
candidate is recorded iff `fuzzyScore > 0.6` and the matched count is at
least 2, where the matched count is the number of file-token OCCURRENCES
(with multiplicity, not distinct values) that fuzzy-match some reference
token, `fuzzyScore = matchedCount / max(|fileTokens|, |refTokens|)`, and the
recorded score is `fuzzyScore * 0.7`. -/
theorem fuzzy_words_occurrence_count (pdf_name doc_name : String)
    (hne : clean_text_for_matching pdf_name ≠ clean_text_for_matching doc_name)
    (hwo : calculate_word_overlap_score (extract_meaningful_words pdf_name 3)
      (extract_meaningful_words doc_name 3) ≤ 7 / 10)
    (hlen : (clean_text_for_matching doc_name).length ≤ 8)
    (h1 : 2 ≤ (extract_meaningful_words pdf_name 3).length)
    (h2 : 2 ≤ (extract_meaningful_words doc_name 3).length) :
    evalPair pdf_name doc_name =
      if 3 / 5 < (fuzzyMatchesCount (extract_meaningful_words pdf_name 3)
            (extract_meaningful_words doc_name 3) : ℚ) /
            (max (extract_meaningful_words pdf_name 3).length
              (extract_meaningful_words doc_name 3).length : ℚ) ∧
          2 ≤ fuzzyMatchesCount (extract_meaningful_words pdf_name 3)
            (extract_meaningful_words doc_name 3) then
        .candidate ((fuzzyMatchesCount (extract_meaningful_words pdf_name 3)
              (extract_meaningful_words doc_name 3) : ℚ) /
            (max (extract_meaningful_words pdf_name 3).length
              (extract_meaningful_words doc_name 3).length : ℚ) * (7 / 10))
          .fuzzy_words
      else .noCand := by
  have hcount : fuzzyMatchesCount (extract_meaningful_words pdf_name 3)
      (extract_meaningful_words doc_name 3) =
      ((extract_meaningful_words pdf_name 3).filter fun pw =>
        (extract_meaningful_words doc_name 3).any fun dw => fuzzy_word_match pw dw).length := by
    unfold fuzzyMatchesCount
    exact List.countP_eq_length_filter _ _
  simp only [evalPair]
  rw [if_neg hne]
  rw [if_neg (fun hcon => absurd hcon.1 (not_lt.mpr hwo))]
  rw [if_neg (by omega)]
  rw [if_pos ⟨h1, h2⟩]
  simp only [fuzzyBranch, fuzzyStrategy, hcount]
  by_cases hc : 3 / 5 < (((extract_meaningful_words pdf_name 3).filter fun pw =>
        (extract_meaningful_words doc_name 3).any fun dw => fuzzy_word_match pw dw).length : ℚ) /
        (max (extract_meaningful_words pdf_name 3).length
          (extract_meaningful_words doc_name 3).length : ℚ) ∧
      2 ≤ ((extract_meaningful_words pdf_name 3).filter fun pw =>
        (extract_meaningful_words doc_name 3).any fun dw => fuzzy_word_match pw dw).length
  · rw [if_pos hc, if_pos hc]
  · rw [if_neg hc, if_neg hc]

unseal Rat.inv Rat.mul Rat.add Rat.sub Nat.gcd in
/-- Claim C3 (witness): the amended theorem at the names `"abc abc"` and
`"abc xyz"`, whose branch conditions hold and where the recorded candidate
has occurrence count 2 and score `1 * 0.7`. -/
theorem fuzzy_words_occurrence_count_witness :
    evalPair "abc abc" "abc xyz" = .candidate (7 / 10) .fuzzy_words := by
  have h := fuzzy_words_occurrence_count "abc abc" "abc xyz" (by decide) (by decide)
    (by decide) (by decide) (by decide)
  rw [h]
  decide


/-! ## Structural lemmas about the cascade branches -/

theorem substringBranch_strat (cp cd : String) (s : ℚ) (st : Strategy)
    (h : substringBranch cp cd = .candidate s st) :
    st = .substring ∨ st = .reverse := by
  simp only [substringBranch] at h
  split_ifs at h <;> injection h with h1 h2
  · exact Or.inl h2.symm
  · exact Or.inr h2.symm

theorem highSimBranch_eq (cp cd : String) (s : ℚ) (st : Strategy)
    (h : highSimBranch cp cd = .candidate s st) :
    st = .high_similarity ∧ 6 < cp.length ∧ 6 < cd.length ∧
      17 / 20 < similarity cp cd ∧ s = similarity cp cd * (3 / 5) := by
  simp only [highSimBranch] at h
  split_ifs at h with hcond
  injection h with h1 h2
  exact ⟨h2.symm, hcond.2.1, hcond.2.2, hcond.1, h1.symm⟩

theorem fuzzyBranch_strat (pw dw : List String) (s : ℚ) (st : Strategy)
    (h : fuzzyBranch pw dw = .candidate s st) : st = .fuzzy_words := by
  unfold fuzzyBranch at h
  rcases hf : fuzzyStrategy pw dw with _ | s'
  · rw [hf] at h
    injection h
  · rw [hf] at h
    injection h with h1 h2
    exact h2.symm

theorem substringBranch_ne_exact (cp cd : String) : substringBranch cp cd ≠ .exactHit := by
  simp only [substringBranch]
  split_ifs <;> intro h <;> injection h

theorem highSimBranch_ne_exact (cp cd : String) : highSimBranch cp cd ≠ .exactHit := by
  simp only [highSimBranch]
  split_ifs <;> intro h <;> injection h

theorem fuzzyBranch_ne_exact (pw dw : List String) : fuzzyBranch pw dw ≠ .exactHit := by
  unfold fuzzyBranch
  rcases hf : fuzzyStrategy pw dw with _ | s' <;> intro h <;> injection h

theorem evalPair_exactHit_iff (pdf_name doc_name : String) :
    evalPair pdf_name doc_name = .exactHit ↔
      clean_text_for_matching pdf_name = clean_text_for_matching doc_name := by
  constructor
  · intro h
    by_contra hne
    simp only [evalPair] at h
    rw [if_neg hne] at h
    by_cases hc1 : 7 / 10 < calculate_word_overlap_score (extract_meaningful_words pdf_name 3)
        (extract_meaningful_words doc_name 3) ∧
        2 ≤ (extract_meaningful_words pdf_name 3).length ∧
        2 ≤ (extract_meaningful_words doc_name 3).length
    · rw [if_pos hc1] at h
      injection h
    rw [if_neg hc1] at h
    by_cases hc2 : 8 < (clean_text_for_matching doc_name).length
    · rw [if_pos hc2] at h
      exact substringBranch_ne_exact _ _ h
    rw [if_neg hc2] at h
    by_cases hc3 : 2 ≤ (extract_meaningful_words pdf_name 3).length ∧
        2 ≤ (extract_meaningful_words doc_name 3).length
    · rw [if_pos hc3] at h
      exact fuzzyBranch_ne_exact _ _ h
    rw [if_neg hc3] at h
    exact highSimBranch_ne_exact _ _ h
  · intro h
    simp only [evalPair]
    rw [if_pos h]

/-! ## Claim C7: the WordOverlap threshold is strict -/

/-- Claim C7: for names whose token lists both have length at least 2 and
which are not an exact match, the cascade offers a WordOverlap candidate
exactly when the overlap score is strictly above `0.7` (so a score of
exactly `0.7` does not qualify), and the candidate's score is the overlap
score itself. -/
theorem word_overlap_strict_threshold (pdf_name doc_name : String)
    (h1 : 2 ≤ (extract_meaningful_words pdf_name 3).length)
    (h2 : 2 ≤ (extract_meaningful_words doc_name 3).length)
    (h3 : clean_text_for_matching pdf_name ≠ clean_text_for_matching doc_name) (s : ℚ) :
    evalPair pdf_name doc_name = .candidate s .word_overlap ↔
      (7 / 10 < calculate_word_overlap_score (extract_meaningful_words pdf_name 3)
          (extract_meaningful_words doc_name 3) ∧
        s = calculate_word_overlap_score (extract_meaningful_words pdf_name 3)
          (extract_meaningful_words doc_name 3)) := by
  simp only [evalPair]
  rw [if_neg h3]
  by_cases hw : 7 / 10 < calculate_word_overlap_score (extract_meaningful_words pdf_name 3)
      (extract_meaningful_words doc_name 3) ∧
      2 ≤ (extract_meaningful_words pdf_name 3).length ∧
      2 ≤ (extract_meaningful_words doc_name 3).length
  · rw [if_pos hw]
    constructor
    · intro h
      injection h with ha hb
      exact ⟨hw.1, ha.symm⟩
    · rintro ⟨_, rfl⟩
      rfl
  · rw [if_neg hw]
    have hnlt : ¬ 7 / 10 < calculate_word_overlap_score (extract_meaningful_words pdf_name 3)
        (extract_meaningful_words doc_name 3) := fun hl => hw ⟨hl, h1, h2⟩
    constructor
    · intro h
      exfalso
      by_cases hc2 : 8 < (clean_text_for_matching doc_name).length
      · rw [if_pos hc2] at h
        rcases substringBranch_strat _ _ _ _ h with h' | h' <;> exact absurd h' (by decide)
      rw [if_neg hc2] at h
      rw [if_pos ⟨h1, h2⟩] at h
      exact absurd (fuzzyBranch_strat _ _ _ _ h) (by decide)
    · rintro ⟨hl, _⟩
      exact absurd hl hnlt

/-! ## Claim C10: reachability of the HighSimilarity branch -/

/-- Claim C10: a HighSimilarity candidate can only be recorded when the
normalized reference name has length exactly 7 or 8 (above 6 but at most 8,
longer names being routed into the Substring branch) and at least one side
has fewer than 2 meaningful tokens (otherwise the FuzzyWords branch fires);
for every other shape the branch is unreachable. -/
theorem high_similarity_reachability (pdf_name doc_name : String) (s : ℚ)
    (h : evalPair pdf_name doc_name = .candidate s .high_similarity) :
    ((clean_text_for_matching doc_name).length = 7 ∨
      (clean_text_for_matching doc_name).length = 8) ∧
    ((extract_meaningful_words pdf_name 3).length < 2 ∨
      (extract_meaningful_words doc_name 3).length < 2) := by
  simp only [evalPair] at h
  by_cases hc0 : clean_text_for_matching pdf_name = clean_text_for_matching doc_name
  · rw [if_pos hc0] at h
    injection h
  rw [if_neg hc0] at h
  by_cases hc1 : 7 / 10 < calculate_word_overlap_score (extract_meaningful_words pdf_name 3)
      (extract_meaningful_words doc_name 3) ∧
      2 ≤ (extract_meaningful_words pdf_name 3).length ∧
      2 ≤ (extract_meaningful_words doc_name 3).length
  · rw [if_pos hc1] at h
    injection h with ha hb
    exact absurd hb (by decide)
  rw [if_neg hc1] at h
  by_cases hc2 : 8 < (clean_text_for_matching doc_name).length
  · rw [if_pos hc2] at h
    rcases substringBranch_strat _ _ _ _ h with h' | h' <;> exact absurd h' (by decide)
  rw [if_neg hc2] at h
  by_cases hc3 : 2 ≤ (extract_meaningful_words pdf_name 3).length ∧
      2 ≤ (extract_meaningful_words doc_name 3).length
  · rw [if_pos hc3] at h
    exact absurd (fuzzyBranch_strat _ _ _ _ h) (by decide)
  rw [if_neg hc3] at h
  have h5 := highSimBranch_eq _ _ _ _ h
  have hd := h5.2.2.1
  have hlen : (clean_text_for_matching doc_name).length ≤ 8 := by omega
  refine ⟨by omega, by omega⟩

unseal Rat.inv Rat.mul Rat.add Rat.sub Nat.gcd in
/-- Claim C7 (witness): the theorem at token-rich names with overlap score 1,
which is above the threshold and so recorded. -/
theorem word_overlap_strict_threshold_witness :
    evalPair "alpha beta gamma" "beta gamma alpha" = .candidate 1 .word_overlap ∧
    7 / 10 < calculate_word_overlap_score (extract_meaningful_words "alpha beta gamma" 3)
      (extract_meaningful_words "beta gamma alpha" 3) := by
  have h := word_overlap_strict_threshold "alpha beta gamma" "beta gamma alpha"
    (by decide) (by decide) (by decide) 1
  exact ⟨h.mpr ⟨by decide, by decide⟩, by decide⟩

unseal Rat.inv Rat.mul Rat.add Rat.sub Nat.gcd in
/-- Claim C10 (witness): the theorem at `"abcdefg"` / `"abcdefgh"`, where the
HighSimilarity branch records a candidate (similarity `14/15`, score
`14/15 * 0.6 = 14/25`) and the reference name's normalized length is 8. -/
theorem high_similarity_reachability_witness :
    ((clean_text_for_matching "abcdefgh").length = 7 ∨
      (clean_text_for_matching "abcdefgh").length = 8) ∧
    ((extract_meaningful_words "abcdefg" 3).length < 2 ∨
      (extract_meaningful_words "abcdefgh" 3).length < 2) :=
  high_similarity_reachability "abcdefg" "abcdefgh" (14 / 25) (by decide)

/-! ## Claim C5: exact-match precedence -/

/-- Claim C5: if the normalized file stem equals the normalized name of a
reference entry and no earlier entry matches exactly, the matcher emits that
entry with strategy Exact, whatever the entries before or after it would
score under any other strategy — the entries after it are not evaluated at
all (the result does not depend on `post`). -/
theorem exact_match_precedence (pdf_name : String) (pre post : List (String × String))
    (doc_name doc_number : String)
    (hpre : ∀ e ∈ pre, clean_text_for_matching pdf_name ≠ clean_text_for_matching e.1)
    (hexact : clean_text_for_matching pdf_name = clean_text_for_matching doc_name) :
    matchFile pdf_name (pre ++ (doc_name, doc_number) :: post) =
      .exactM doc_name doc_number := by
  have key : ∀ (pre' : List (String × String)),
      (∀ e ∈ pre', clean_text_for_matching pdf_name ≠ clean_text_for_matching e.1) →
      ∀ (bs : ℚ) (bm : Option (String × String × Strategy)),
        matchFold pdf_name (pre' ++ (doc_name, doc_number) :: post) bs bm =
          .exactM doc_name doc_number := by
    intro pre'
    induction pre' with
    | nil =>
      intro _ bs bm
      have he : evalPair pdf_name doc_name = .exactHit :=
        (evalPair_exactHit_iff _ _).mpr hexact
      simp only [List.nil_append, matchFold, he]
    | cons e rest ih =>
      intro hpre' bs bm
      obtain ⟨en, enum⟩ := e
      have hne : evalPair pdf_name en ≠ .exactHit := fun hc =>
        hpre' (en, enum) (List.mem_cons_self _ _) ((evalPair_exactHit_iff _ _).mp hc)
      have ihh := ih fun x hx => hpre' x (List.mem_cons_of_mem _ hx)
      rcases he : evalPair pdf_name en with _ | ⟨s, st⟩ | _
      · exact absurd he hne
      · simp only [List.cons_append, matchFold, he]
        by_cases hbs : bs < s
        · rw [if_pos hbs]
          exact ihh _ _
        · rw [if_neg hbs]
          exact ihh _ _
      · simp only [List.cons_append, matchFold, he]
        exact ihh _ _
  exact key pre hpre 0 none

/-- Claim C5 (witness): the theorem at a concrete reference list; the
exact-matching second entry wins although the first entry is evaluated
before it and a third entry follows. -/
theorem exact_match_precedence_witness :
    matchFile "my_file" [("zz qq", "7"), ("My File", "42"), ("anything", "9")] =
      .exactM "My File" "42" :=
  exact_match_precedence "my_file" [("zz qq", "7")] [("anything", "9")] "My File" "42"
    (by decide) (by decide)

/-! ## Claim C6: no overwrite, no delete -/

theorem renameStep_mem (raisesOn : String → Bool) (st : RenState) (m : PdfFile × String)
    (p : String) (hp : p ∈ st.fs) (hne : origRel m.1 ≠ p) :
    p ∈ (renameStep raisesOn st m).fs := by
  simp only [renameStep]
  split_ifs with h1 h2
  · exact hp
  · exact List.mem_append.mpr (Or.inl ((List.mem_erase_of_ne (Ne.symm hne)).mpr hp))
  · exact hp

theorem undoStep_mem (raisesOn : String → Bool) (st : UndoState) (e : String × String)
    (p : String) (hp : p ∈ st.fs) (hne : e.1 ≠ p) :
    p ∈ (undoStep raisesOn st e).fs := by
  simp only [undoStep]
  split_ifs with h1 h2
  · exact hp
  · exact List.mem_append.mpr (Or.inl ((List.mem_erase_of_ne (Ne.symm hne)).mpr hp))
  · exact hp

theorem renameFold_mem (raisesOn : String → Bool) (ms : List (PdfFile × String)) :
    ∀ (st : RenState) (p : String), p ∈ st.fs → (∀ m ∈ ms, origRel m.1 ≠ p) →
      p ∈ (ms.foldl (renameStep raisesOn) st).fs := by
  induction ms with
  | nil => intro st p hp _; exact hp
  | cons m rest ih =>
    intro st p hp hm
    exact ih (renameStep raisesOn st m) p
      (renameStep_mem raisesOn st m p hp (hm m (List.mem_cons_self _ _)))
      fun x hx => hm x (List.mem_cons_of_mem _ hx)

theorem undoFold_mem (raisesOn : String → Bool) (es : List (String × String)) :
    ∀ (st : UndoState) (p : String), p ∈ st.fs → (∀ e ∈ es, e.1 ≠ p) →
      p ∈ (es.foldl (undoStep raisesOn) st).fs := by
  induction es with
  | nil => intro st p hp _; exact hp
  | cons e rest ih =>
    intro st p hp he
    exact ih (undoStep raisesOn st e) p
      (undoStep_mem raisesOn st e p hp (he e (List.mem_cons_self _ _)))
      fun x hx => he x (List.mem_cons_of_mem _ hx)

/-- Claim C6: neither pass overwrites or deletes a pre-existing file.  If the
rename target already exists the rename step leaves everything unchanged; if
an undo target exists and differs from the current path the undo step only
counts a skip; and any file that is not itself a rename source (resp. a
ledger key) is still on disk after the whole rename pass (resp. undo pass). -/
theorem no_overwrite_no_delete :
    (∀ (raisesOn : String → Bool) (st : RenState) (f : PdfFile) (num : String),
      newRel num f ∈ st.fs → renameStep raisesOn st (f, num) = st) ∧
    (∀ (raisesOn : String → Bool) (st : UndoState) (cur orig : String),
      orig ∈ st.fs → orig ≠ cur →
        undoStep raisesOn st (cur, orig) = { st with skipped := st.skipped + 1 }) ∧
    (∀ (raisesOn : String → Bool) (ms : List (PdfFile × String)) (fs0 : List String)
        (p : String), p ∈ fs0 → (∀ m ∈ ms, origRel m.1 ≠ p) →
        p ∈ (renamePass raisesOn ms fs0).fs) ∧
    (∀ (raisesOn : String → Bool) (fs0 : List String)
        (backup : List (String × String)) (p : String), p ∈ fs0 →
        (∀ e ∈ backup, e.1 ≠ p) →
        p ∈ (undo_renames raisesOn fs0 (some backup)).fs) := by
  refine ⟨?_, ?_, ?_, ?_⟩
  · intro raisesOn st f num h
    unfold renameStep
    rw [if_pos h]
  · intro raisesOn st cur orig h1 h2
    unfold undoStep
    rw [if_pos ⟨h1, h2⟩]
  · intro raisesOn ms fs0 p hp hm
    exact renameFold_mem raisesOn ms ⟨fs0, [], 0⟩ p hp hm
  · intro raisesOn fs0 backup p hp hb
    simp only [undo_renames]
    split_ifs
    any_goals exact hp
    all_goals
      exact undoFold_mem raisesOn (backup.filter fun e => decide (e.1 ∈ fs0))
        ⟨fs0, [], 0⟩ p hp (fun e he => hb e (List.mem_filter.mp he).1)

/-- Claim C6 (witness): the four parts of the theorem at concrete states: a
rename whose target exists is a no-op, an undo entry whose original path is
occupied only counts a skip, and a bystander file survives both passes. -/
theorem no_overwrite_no_delete_witness :
    renameStep (fun _ => false) ⟨["a.pdf", "1a.pdf"], [], 0⟩ (⟨"", "a"⟩, "1") =
      ⟨["a.pdf", "1a.pdf"], [], 0⟩ ∧
    undoStep (fun _ => false) ⟨["1a.pdf", "a.pdf"], [], 0⟩ ("1a.pdf", "a.pdf") =
      ⟨["1a.pdf", "a.pdf"], [], 1⟩ ∧
    "keep.pdf" ∈ (renamePass (fun _ => false) [(⟨"", "a"⟩, "1")] ["keep.pdf", "a.pdf"]).fs ∧
    "keep.pdf" ∈ (undo_renames (fun _ => false) ["keep.pdf", "1a.pdf"]
      (some [("1a.pdf", "a.pdf")])).fs :=
  ⟨no_overwrite_no_delete.1 (fun _ => false) ⟨["a.pdf", "1a.pdf"], [], 0⟩ ⟨"", "a"⟩ "1"
      (by decide),
   no_overwrite_no_delete.2.1 (fun _ => false) ⟨["1a.pdf", "a.pdf"], [], 0⟩ "1a.pdf" "a.pdf"
      (by decide) (by decide),
   no_overwrite_no_delete.2.2.1 (fun _ => false) [(⟨"", "a"⟩, "1")] ["keep.pdf", "a.pdf"]
      "keep.pdf" (by decide) (by decide),
   no_overwrite_no_delete.2.2.2 (fun _ => false) ["keep.pdf", "1a.pdf"]
      [("1a.pdf", "a.pdf")] "keep.pdf" (by decide) (by decide)⟩

/-- Special case of the round-trip property, with the rename pass run
symbolically: for a batch renaming exactly one file (on a duplicate-free
filesystem, target absent, rename succeeding), running undo afterwards
moves the file back to its exact original relative path, removes its key,
and — the ledger then being empty — deletes the ledger file. -/
theorem single_rename_round_trip (f : PdfFile) (num : String) (fs0 : List String)
    (hnd : fs0.Nodup) (ho : origRel f ∈ fs0) (hn : newRel num f ∉ fs0) :
    (renamePass (fun _ => false) [(f, num)] fs0).count = 1 ∧
    origRel f ∈ (undo_renames (fun _ => false)
      (renamePass (fun _ => false) [(f, num)] fs0).fs
      (persistLedger none (renamePass (fun _ => false) [(f, num)] fs0).hist)).fs ∧
    newRel num f ∉ (undo_renames (fun _ => false)
      (renamePass (fun _ => false) [(f, num)] fs0).fs
      (persistLedger none (renamePass (fun _ => false) [(f, num)] fs0).hist)).fs ∧
    (undo_renames (fun _ => false)
      (renamePass (fun _ => false) [(f, num)] fs0).fs
      (persistLedger none (renamePass (fun _ => false) [(f, num)] fs0).hist)).ledger
      = none ∧
    (undo_renames (fun _ => false)
      (renamePass (fun _ => false) [(f, num)] fs0).fs
      (persistLedger none (renamePass (fun _ => false) [(f, num)] fs0).hist)).revertedCount
      = 1 := by
  have hno_ne : origRel f ≠ newRel num f := fun h => hn (h ▸ ho)
  have hn_not_erase : newRel num f ∉ fs0.erase (origRel f) :=
    fun h => hn (List.mem_of_mem_erase h)
  have hn_mem1 : newRel num f ∈ fs0.erase (origRel f) ++ [newRel num f] := by simp
  have ho_not1 : origRel f ∉ fs0.erase (origRel f) ++ [newRel num f] := by
    intro hmem
    rcases List.mem_append.mp hmem with h | h
    · exact hnd.not_mem_erase h
    · exact hno_ne (List.mem_singleton.mp h)
  have hpass : renamePass (fun _ => false) [(f, num)] fs0 =
      ⟨fs0.erase (origRel f) ++ [newRel num f], [(newRel num f, origRel f)], 1⟩ := by
    show renameStep (fun _ => false) ⟨fs0, [], 0⟩ (f, num) = _
    simp only [renameStep]
    split_ifs with hc1
    · rfl
    · exact absurd ⟨ho, trivial⟩ hc1
  have hledg : persistLedger none [(newRel num f, origRel f)] =
      some [(newRel num f, origRel f)] := by
    simp only [persistLedger]
    rw [if_neg (by simp)]
    rfl
  have herase : (fs0.erase (origRel f) ++ [newRel num f]).erase (newRel num f) =
      fs0.erase (origRel f) := by
    rw [List.erase_append_right [newRel num f] hn_not_erase, List.erase_cons_head]
    simp
  have hstep : undoStep (fun _ => false)
      ⟨fs0.erase (origRel f) ++ [newRel num f], [], 0⟩ (newRel num f, origRel f) =
      ⟨(fs0.erase (origRel f) ++ [newRel num f]).erase (newRel num f) ++ [origRel f],
        [newRel num f], 0⟩ := by
    simp only [undoStep]
    rw [if_neg (fun hcon => ho_not1 hcon.1)]
    rw [if_pos ⟨hn_mem1, trivial⟩]
    rfl
  have hfold : List.foldl (undoStep (fun _ => false))
      ⟨fs0.erase (origRel f) ++ [newRel num f], [], 0⟩ [(newRel num f, origRel f)] =
      ⟨(fs0.erase (origRel f) ++ [newRel num f]).erase (newRel num f) ++ [origRel f],
        [newRel num f], 0⟩ := hstep
  have hundo : undo_renames (fun _ => false)
      (fs0.erase (origRel f) ++ [newRel num f]) (some [(newRel num f, origRel f)]) =
      ⟨fs0.erase (origRel f) ++ [origRel f], none, 1, 0⟩ := by
    simp only [undo_renames]
    rw [if_neg (by simp)]
    have hfil : ([(newRel num f, origRel f)].filter fun e =>
        decide (e.1 ∈ fs0.erase (origRel f) ++ [newRel num f])) =
        [(newRel num f, origRel f)] := by
      simp [hn_mem1]
    rw [hfil]
    rw [if_neg (by simp)]
    rw [hfold]
    simp [herase]
  rw [hpass]
  dsimp only
  rw [hledg, hundo]
  refine ⟨rfl, by simp, ?_, rfl, rfl⟩
  intro hmem
  rcases List.mem_append.mp hmem with h | h
  · exact hn_not_erase h
  · exact hno_ne ((List.mem_singleton.mp h).symm)

/-- The one-file special case instantiated: `a.pdf` is renamed to
`1a.pdf` and undo restores `a.pdf`, removes the key and deletes the
ledger file. -/
theorem single_rename_round_trip_witness :
    (renamePass (fun _ => false) [(⟨"", "a"⟩, "1")] ["a.pdf"]).count = 1 ∧
    origRel ⟨"", "a"⟩ ∈ (undo_renames (fun _ => false)
      (renamePass (fun _ => false) [(⟨"", "a"⟩, "1")] ["a.pdf"]).fs
      (persistLedger none (renamePass (fun _ => false) [(⟨"", "a"⟩, "1")] ["a.pdf"]).hist)).fs ∧
    newRel "1" ⟨"", "a"⟩ ∉ (undo_renames (fun _ => false)
      (renamePass (fun _ => false) [(⟨"", "a"⟩, "1")] ["a.pdf"]).fs
      (persistLedger none (renamePass (fun _ => false) [(⟨"", "a"⟩, "1")] ["a.pdf"]).hist)).fs ∧
    (undo_renames (fun _ => false)
      (renamePass (fun _ => false) [(⟨"", "a"⟩, "1")] ["a.pdf"]).fs
      (persistLedger none (renamePass (fun _ => false) [(⟨"", "a"⟩, "1")] ["a.pdf"]).hist)).ledger
      = none ∧
    (undo_renames (fun _ => false)
      (renamePass (fun _ => false) [(⟨"", "a"⟩, "1")] ["a.pdf"]).fs
      (persistLedger none (renamePass (fun _ => false)
        [(⟨"", "a"⟩, "1")] ["a.pdf"]).hist)).revertedCount = 1 :=
  single_rename_round_trip ⟨"", "a"⟩ "1" ["a.pdf"] (by decide) (by decide) (by decide)

/-! ## Claim C9: idempotence of the normalizer

The proof characterises the output of `cleanChars`: every character is
either a single `' '` or a lowercase-stable alphanumeric character, with no
two adjacent whitespace characters and none at either end; each stage of a
second pass is then the identity. -/

def noTwoWs : List Char → Prop
  | [] => True
  | [_] => True
  | a :: b :: rest => ¬(a.isWhitespace = true ∧ b.isWhitespace = true) ∧ noTwoWs (b :: rest)

def lastNotWsP : List Char → Prop
  | [] => True
  | [c] => c.isWhitespace = false
  | _ :: b :: rest => lastNotWsP (b :: rest)

theorem noTwoWs_cons (a : Char) (l : List Char) :
    noTwoWs (a :: l) ↔
      (∀ b, l.head? = some b → ¬(a.isWhitespace = true ∧ b.isWhitespace = true)) ∧
        noTwoWs l := by
  cases l with
  | nil => simp [noTwoWs]
  | cons b rest => simp [noTwoWs]

theorem noTwoWs_tail (a : Char) (l : List Char) (h : noTwoWs (a :: l)) : noTwoWs l :=
  ((noTwoWs_cons a l).mp h).2

theorem lastNotWsP_cons (a : Char) (l : List Char) (h : l ≠ []) :
    lastNotWsP (a :: l) ↔ lastNotWsP l := by
  cases l with
  | nil => exact absurd rfl h
  | cons b rest => simp [lastNotWsP]

theorem map_self_of (l : List Char) (f : Char → Char) (h : ∀ c ∈ l, f c = c) :
    l.map f = l := by
  induction l with
  | nil => rfl
  | cons a t ih =>
    simp only [List.map_cons]
    rw [h a (List.mem_cons_self _ _), ih fun c hc => h c (List.mem_cons_of_mem _ hc)]

theorem charClass (c : Char) :
    (nonWordToSpace (sepToSpace c)).isWhitespace = true ∨
      (nonWordToSpace (sepToSpace c)).isAlphanum = true := by
  by_cases hsep : c = '_' ∨ c = '-' ∨ c = '.'
  · left
    unfold sepToSpace
    rw [if_pos hsep]
    decide
  · have hs : sepToSpace c = c := by
      unfold sepToSpace
      rw [if_neg hsep]
    rw [hs]
    unfold nonWordToSpace
    by_cases hw : isWordChar c = false ∧ c.isWhitespace = false
    · rw [if_pos hw]
      left
      decide
    · rw [if_neg hw]
      rcases Bool.eq_false_or_eq_true (isWordChar c) with hwc | hwc
      · unfold isWordChar at hwc
        simp only [Bool.or_eq_true, beq_iff_eq] at hwc
        rcases hwc with h | h
        · right
          exact h
        · exact absurd (Or.inl h) hsep
      · left
        rcases Bool.eq_false_or_eq_true c.isWhitespace with h | h
        · exact h
        · exact absurd ⟨hwc, h⟩ hw

theorem mem_collapseAux (l : List Char) :
    ∀ (b : Bool) (c : Char), c ∈ collapseWsAux b l →
      c = ' ' ∨ (c ∈ l ∧ c.isWhitespace = false) := by
  induction l with
  | nil => intro b c hc; exact absurd hc (List.not_mem_nil c)
  | cons d ds ih =>
    intro b c hc
    by_cases hd : d.isWhitespace = true
    · rw [show collapseWsAux b (d :: ds) =
          (if b then collapseWsAux true ds else ' ' :: collapseWsAux true ds) by
        simp [collapseWsAux, hd]] at hc
      have hrest : c ∈ collapseWsAux true ds → c = ' ' ∨ (c ∈ d :: ds ∧ c.isWhitespace = false) := by
        intro hmem
        rcases ih true c hmem with h | ⟨h1, h2⟩
        · exact Or.inl h
        · exact Or.inr ⟨List.mem_cons_of_mem _ h1, h2⟩
      cases b
      · rw [if_neg (by decide)] at hc
        rcases List.mem_cons.mp hc with rfl | hc
        · exact Or.inl rfl
        · exact hrest hc
      · rw [if_pos rfl] at hc
        exact hrest hc
    · rw [show collapseWsAux b (d :: ds) = d :: collapseWsAux false ds by
        simp [collapseWsAux, hd]] at hc
      rcases List.mem_cons.mp hc with rfl | hc
      · exact Or.inr ⟨List.mem_cons_self _ _, Bool.eq_false_iff.mpr hd⟩
      · rcases ih false c hc with h | ⟨h1, h2⟩
        · exact Or.inl h
        · exact Or.inr ⟨List.mem_cons_of_mem _ h1, h2⟩

theorem head_collapse_true (l : List Char) :
    ∀ c, (collapseWsAux true l).head? = some c → c.isWhitespace = false := by
  induction l with
  | nil => intro c hc; exact absurd hc (by simp [collapseWsAux])
  | cons d ds ih =>
    intro c hc
    by_cases hd : d.isWhitespace = true
    · rw [show collapseWsAux true (d :: ds) = collapseWsAux true ds by
        simp [collapseWsAux, hd]] at hc
      exact ih c hc
    · rw [show collapseWsAux true (d :: ds) = d :: collapseWsAux false ds by
        simp [collapseWsAux, hd]] at hc
      rw [List.head?_cons] at hc
      cases hc
      exact Bool.eq_false_iff.mpr hd

theorem noTwoWs_collapseAux (l : List Char) : ∀ b, noTwoWs (collapseWsAux b l) := by
  induction l with
  | nil => intro b; exact trivial
  | cons d ds ih =>
    intro b
    by_cases hd : d.isWhitespace = true
    · rw [show collapseWsAux b (d :: ds) =
          (if b then collapseWsAux true ds else ' ' :: collapseWsAux true ds) by
        simp [collapseWsAux, hd]]
      cases b
      · rw [if_neg (by decide)]
        rw [noTwoWs_cons]
        refine ⟨?_, ih true⟩
        intro x hx hcon
        have := head_collapse_true ds x hx
        rw [this] at hcon
        exact Bool.false_ne_true hcon.2
      · rw [if_pos rfl]
        exact ih true
    · rw [show collapseWsAux b (d :: ds) = d :: collapseWsAux false ds by
        simp [collapseWsAux, hd]]
      rw [noTwoWs_cons]
      refine ⟨?_, ih false⟩
      intro x hx hcon
      exact hd hcon.1

theorem noTwoWs_dropWhile (p : Char → Bool) (l : List Char) (h : noTwoWs l) :
    noTwoWs (l.dropWhile p) := by
  induction l with
  | nil => exact trivial
  | cons d ds ih =>
    rw [List.dropWhile_cons]
    by_cases hp : p d = true
    · rw [if_pos hp]
      exact ih (noTwoWs_tail _ _ h)
    · rw [if_neg hp]
      exact h

theorem dropTrailingWs_shape (d : Char) (ds : List Char) :
    dropTrailingWs (d :: ds) = [] ∨ dropTrailingWs (d :: ds) = d :: dropTrailingWs ds := by
  by_cases hc : dropTrailingWs ds = [] ∧ d.isWhitespace = true
  · left
    simp [dropTrailingWs, hc.1, hc.2]
  · right
    simp only [dropTrailingWs]
    rw [if_neg (by simpa using hc)]

theorem head_dropTrailingWs (l : List Char) (c : Char)
    (hc : (dropTrailingWs l).head? = some c) : l.head? = some c := by
  cases l with
  | nil => exact absurd hc (by simp [dropTrailingWs])
  | cons d ds =>
    rcases dropTrailingWs_shape d ds with h | h
    · rw [h] at hc
      exact absurd hc (by simp)
    · rw [h, List.head?_cons] at hc
      rw [List.head?_cons]
      exact hc

theorem mem_dropTrailingWs (l : List Char) (c : Char) (hc : c ∈ dropTrailingWs l) :
    c ∈ l := by
  induction l with
  | nil => exact absurd hc (List.not_mem_nil c)
  | cons d ds ih =>
    rcases dropTrailingWs_shape d ds with h | h
    · rw [h] at hc
      exact absurd hc (List.not_mem_nil c)
    · rw [h] at hc
      rcases List.mem_cons.mp hc with rfl | hc
      · exact List.mem_cons_self _ _
      · exact List.mem_cons_of_mem _ (ih hc)

theorem noTwoWs_dropTrailingWs (l : List Char) (h : noTwoWs l) :
    noTwoWs (dropTrailingWs l) := by
  induction l with
  | nil => exact trivial
  | cons d ds ih =>
    rcases dropTrailingWs_shape d ds with hsh | hsh
    · rw [hsh]
      exact trivial
    · rw [hsh]
      rw [noTwoWs_cons]
      refine ⟨?_, ih (noTwoWs_tail _ _ h)⟩
      intro x hx hcon
      have hxds : ds.head? = some x := head_dropTrailingWs ds x hx
      cases ds with
      | nil => exact absurd hxds (by simp)
      | cons e es =>
        rw [List.head?_cons] at hxds
        cases hxds
        exact h.1 hcon

theorem lastNotWsP_dropTrailingWs (l : List Char) : lastNotWsP (dropTrailingWs l) := by
  induction l with
  | nil => exact trivial
  | cons d ds ih =>
    rcases dropTrailingWs_shape d ds with hsh | hsh
    · rw [hsh]
      exact trivial
    · rw [hsh]
      rcases hr : dropTrailingWs ds with _ | ⟨e, es⟩
    
      · have hd : d.isWhitespace = false := by
          rcases Bool.eq_false_or_eq_true d.isWhitespace with hw | hw
          · have : dropTrailingWs (d :: ds) = [] := by
              simp [dropTrailingWs, hr, hw]
            rw [this] at hsh
            exact absurd hsh.symm (by simp)
          · exact hw
        exact hd
      · rw [(lastNotWsP_cons d (e :: es) (by simp))]
        rw [hr] at ih
        exact ih

theorem noTwoWs_map_toLower (l : List Char) (h : noTwoWs l) :
    noTwoWs (l.map Char.toLower) := by
  induction l with
  | nil => exact trivial
  | cons a t ih =>
    rw [List.map_cons, noTwoWs_cons]
    refine ⟨?_, ih (noTwoWs_tail _ _ h)⟩
    intro x hx hcon
    rw [List.head?_map] at hx
    cases t with
    | nil => exact absurd hx (by simp)
    | cons b rest =>
      rw [List.head?_cons] at hx
      simp only [Option.map_some'] at hx
      cases hx
      rw [char_toLower_ws] at hcon
      have hb := hcon.2
      rw [char_toLower_ws] at hb
      exact h.1 ⟨hcon.1, hb⟩

theorem lastNotWsP_map_toLower (l : List Char) (h : lastNotWsP l) :
    lastNotWsP (l.map Char.toLower) := by
  induction l with
  | nil => exact trivial
  | cons a t ih =>
    cases t with
    | nil =>
      simp only [List.map_cons, List.map_nil]
      show (Char.toLower a).isWhitespace = false
      rw [char_toLower_ws]
      exact h
    | cons b rest =>
      rw [List.map_cons]
      rw [lastNotWsP_cons _ _ (by simp)]
      exact ih ((lastNotWsP_cons a (b :: rest) (by simp)).mp h)

theorem collapse_id (l : List Char)
    (h1 : ∀ c ∈ l, c.isWhitespace = true → c = ' ') (h2 : noTwoWs l) :
    collapseWsAux false l = l ∧
      ((∀ c, l.head? = some c → c.isWhitespace = false) → collapseWsAux true l = l) := by
  induction l with
  | nil => exact ⟨rfl, fun _ => rfl⟩
  | cons d ds ih =>
    have ihds := ih (fun c hc hw => h1 c (List.mem_cons_of_mem _ hc) hw) (noTwoWs_tail _ _ h2)
    by_cases hd : d.isWhitespace = true
    · have hd' : d = ' ' := h1 d (List.mem_cons_self _ _) hd
      have htail : collapseWsAux true ds = ds := by
        apply ihds.2
        intro c hc
        cases ds with
        | nil => exact absurd hc (by simp)
        | cons e es =>
          rw [List.head?_cons] at hc
          cases hc
          rcases Bool.eq_false_or_eq_true c.isWhitespace with hw | hw
          · exact absurd ⟨hd, hw⟩ h2.1
          · exact hw
      constructor
      · rw [show collapseWsAux false (d :: ds) = ' ' :: collapseWsAux true ds by
          simp [collapseWsAux, hd]]
        rw [htail, hd']
      · intro hh
        exact absurd (hh d (by rw [List.head?_cons])) (by simp [hd])
    · have hstep : ∀ b : Bool, collapseWsAux b (d :: ds) = d :: collapseWsAux false ds := by
        intro b
        simp [collapseWsAux, hd]
      constructor
      · rw [hstep false, ihds.1]
      · intro _
        rw [hstep true, ihds.1]

theorem dropWhile_ws_id (l : List Char)
    (h : ∀ c, l.head? = some c → c.isWhitespace = false) :
    l.dropWhile Char.isWhitespace = l := by
  cases l with
  | nil => rfl
  | cons d ds =>
    rw [List.dropWhile_cons, if_neg (by simp [h d (by rw [List.head?_cons])])]

theorem dropTrailingWs_id (l : List Char) (h : lastNotWsP l) : dropTrailingWs l = l := by
  induction l with
  | nil => rfl
  | cons d ds ih =>
    cases ds with
    | nil =>
      have hd : d.isWhitespace = false := h
      simp [dropTrailingWs, hd]
    | cons e es =>
      have htail : dropTrailingWs (e :: es) = e :: es :=
        ih ((lastNotWsP_cons d (e :: es) (by simp)).mp h)
      show (if dropTrailingWs (e :: es) = [] ∧ d.isWhitespace = true then []
        else d :: dropTrailingWs (e :: es)) = d :: e :: es
      rw [htail]
      rw [if_neg (by simp)]

theorem cleanChars_chars (l : List Char) :
    ∀ c ∈ cleanChars l, c = ' ' ∨ (c.isAlphanum = true ∧ Char.toLower c = c) := by
  intro c hc
  unfold cleanChars at hc
  rcases List.mem_map.mp hc with ⟨z, hz, rfl⟩
  unfold stripChars at hz
  have hz2 := List.dropWhile_subset _ (mem_dropTrailingWs _ _ hz)
  rcases mem_collapseAux _ false z hz2 with rfl | ⟨hz3, hz4⟩
  · left
    decide
  · right
    rcases List.mem_map.mp hz3 with ⟨y0, hy0, hy1⟩
    rcases List.mem_map.mp hy0 with ⟨y, hy, hy2⟩
    have hclass := charClass y
    rw [hy2, hy1] at hclass
    rcases hclass with hws | halnum
    · rw [hws] at hz4
      exact absurd hz4 (by simp)
    · exact ⟨char_toLower_alphanum z halnum, char_toLower_toLower z⟩

theorem cleanChars_head (l : List Char) :
    ∀ c, (cleanChars l).head? = some c → c.isWhitespace = false := by
  intro c hc
  unfold cleanChars at hc
  rw [List.head?_map] at hc
  rcases hs : (stripChars (collapseWs ((l.map sepToSpace).map nonWordToSpace))).head? with
    _ | z
  · rw [hs] at hc
    exact absurd hc (by simp)
  · rw [hs] at hc
    simp only [Option.map_some'] at hc
    cases hc
    unfold stripChars at hs
    have hz := head_dropTrailingWs _ _ hs
    have hznw : z.isWhitespace = false := by
      rcases hl : (collapseWs ((l.map sepToSpace).map nonWordToSpace)).dropWhile
          Char.isWhitespace with _ | ⟨d, ds⟩
      · rw [hl] at hz
        exact absurd hz (by simp)
      · rw [hl] at hz
        rw [List.head?_cons] at hz
        cases hz
        have := List.head?_dropWhile_not Char.isWhitespace
          (collapseWs ((l.map sepToSpace).map nonWordToSpace))
        rw [hl] at this
        simpa using this
    rw [char_toLower_ws]
    exact hznw

theorem cleanChars_idem (l : List Char) : cleanChars (cleanChars l) = cleanChars l := by
  have hclass := cleanChars_chars l
  have hws_one : ∀ c ∈ cleanChars l, c.isWhitespace = true → c = ' ' := by
    intro c hc hw
    rcases hclass c hc with rfl | ⟨ha, _⟩
    · rfl
    · exact absurd hw (by simp [char_alphanum_not_ws c ha])
  have hnoTwo : noTwoWs (cleanChars l) := by
    unfold cleanChars stripChars
    exact noTwoWs_map_toLower _ (noTwoWs_dropTrailingWs _ (noTwoWs_dropWhile _ _
      (noTwoWs_collapseAux _ false)))
  have hlast : lastNotWsP (cleanChars l) := by
    unfold cleanChars stripChars
    exact lastNotWsP_map_toLower _ (lastNotWsP_dropTrailingWs _)
  have hsep_id : (cleanChars l).map sepToSpace = cleanChars l := by
    apply map_self_of
    intro c hc
    rcases hclass c hc with rfl | ⟨ha, _⟩
    · decide
    · unfold sepToSpace
      rw [if_neg]
      rintro (rfl | rfl | rfl) <;> exact absurd ha (by decide)
  have hnw_id : (cleanChars l).map nonWordToSpace = cleanChars l := by
    apply map_self_of
    intro c hc
    rcases hclass c hc with rfl | ⟨ha, _⟩
    · decide
    · unfold nonWordToSpace
      rw [if_neg]
      rintro ⟨hwc, _⟩
      unfold isWordChar at hwc
      simp [ha] at hwc
  have hcoll_id : collapseWs (cleanChars l) = cleanChars l :=
    (collapse_id (cleanChars l) hws_one hnoTwo).1
  have hstrip_id : stripChars (cleanChars l) = cleanChars l := by
    unfold stripChars
    rw [dropWhile_ws_id _ (cleanChars_head l)]
    exact dropTrailingWs_id _ hlast
  have hlower_id : (cleanChars l).map Char.toLower = cleanChars l := by
    apply map_self_of
    intro c hc
    rcases hclass c hc with rfl | ⟨_, hl⟩
    · decide
    · exact hl
  calc cleanChars (cleanChars l)
      = (stripChars (collapseWs (((cleanChars l).map sepToSpace).map
          nonWordToSpace))).map Char.toLower := rfl
    _ = (stripChars (collapseWs (cleanChars l))).map Char.toLower := by
          rw [hsep_id, hnw_id]
    _ = (stripChars (cleanChars l)).map Char.toLower := by rw [hcoll_id]
    _ = (cleanChars l).map Char.toLower := by rw [hstrip_id]
    _ = cleanChars l := hlower_id

/-- Claim C9: normalization is idempotent — for every input string,
`clean_text_for_matching (clean_text_for_matching s) = clean_text_for_matching s`. -/
theorem clean_idempotent (s : String) :
    clean_text_for_matching (clean_text_for_matching s) = clean_text_for_matching s := by
  show String.mk (cleanChars (String.mk (cleanChars s.toList)).toList) =
    String.mk (cleanChars s.toList)
  rw [show (String.mk (cleanChars s.toList)).toList = cleanChars s.toList from rfl]
  rw [cleanChars_idem]

/-! ## The rename/undo round trip for arbitrary batches

Supporting invariants: the in-memory history is a dict, so its keys are
pairwise distinct; both passes preserve duplicate-freeness of the
filesystem; the undo fold never resurrects a path no entry restores to and
never forgets a reverted key. -/

theorem updateAssoc_keys_nodup (m : List (String × String)) (k v : String)
    (h : (m.map Prod.fst).Nodup) : ((updateAssoc m k v).map Prod.fst).Nodup := by
  unfold updateAssoc
  split_ifs with hany
  · have hkeys : ((m.map fun p => if p.1 == k then (k, v) else p).map Prod.fst) =
        m.map Prod.fst := by
      rw [List.map_map]
      apply List.map_congr_left
      intro p hp
      show (if p.1 == k then (k, v) else p).1 = p.1
      by_cases hb : (p.1 == k) = true
      · rw [if_pos hb]
        exact (beq_iff_eq.mp hb).symm
      · rw [if_neg hb]
    rw [hkeys]
    exact h
  · rw [List.map_append, List.nodup_append]
    refine ⟨h, by simp, ?_⟩
    intro a ha hak
    have hak' : a = k := by simpa using hak
    subst hak'
    rcases List.mem_map.mp ha with ⟨p, hp, hpk⟩
    exact hany (List.any_eq_true.mpr ⟨p, hp, by simp [hpk]⟩)

theorem renameStep_keys_nodup (raisesOn : String → Bool) (st : RenState)
    (m : PdfFile × String) (h : (st.hist.map Prod.fst).Nodup) :
    ((renameStep raisesOn st m).hist.map Prod.fst).Nodup := by
  simp only [renameStep]
  split_ifs
  · exact h
  · exact updateAssoc_keys_nodup _ _ _ h
  · exact updateAssoc_keys_nodup _ _ _ h

theorem renameFold_keys_nodup (raisesOn : String → Bool) (ms : List (PdfFile × String)) :
    ∀ st : RenState, (st.hist.map Prod.fst).Nodup →
      (((ms.foldl (renameStep raisesOn) st).hist).map Prod.fst).Nodup := by
  induction ms with
  | nil => intro st h; exact h
  | cons m rest ih => intro st h; exact ih _ (renameStep_keys_nodup raisesOn st m h)

theorem renameStep_fs_nodup (raisesOn : String → Bool) (st : RenState)
    (m : PdfFile × String) (h : st.fs.Nodup) : (renameStep raisesOn st m).fs.Nodup := by
  simp only [renameStep]
  split_ifs with h1 h2
  · exact h
  · rw [List.nodup_append]
    refine ⟨h.erase _, by simp, ?_⟩
    intro a ha hb
    have hb' : a = newRel m.2 m.1 := by simpa using hb
    subst hb'
    exact h1 (List.mem_of_mem_erase ha)
  · exact h

theorem renameFold_fs_nodup (raisesOn : String → Bool) (ms : List (PdfFile × String)) :
    ∀ st : RenState, st.fs.Nodup → ((ms.foldl (renameStep raisesOn) st).fs).Nodup := by
  induction ms with
  | nil => intro st h; exact h
  | cons m rest ih => intro st h; exact ih _ (renameStep_fs_nodup raisesOn st m h)

theorem undoStep_fs_nodup (raisesOn : String → Bool) (st : UndoState)
    (e : String × String) (h : st.fs.Nodup) : (undoStep raisesOn st e).fs.Nodup := by
  simp only [undoStep]
  split_ifs with h1 h2
  · exact h
  · rw [List.nodup_append]
    refine ⟨h.erase _, by simp, ?_⟩
    intro a ha hb
    have hb' : a = e.2 := by simpa using hb
    subst hb'
    by_cases heq : e.2 = e.1
    · rw [heq] at ha
      exact h.not_mem_erase ha
    · exact h1 ⟨List.mem_of_mem_erase ha, heq⟩
  · exact h

theorem undoFold_fs_nodup (raisesOn : String → Bool) (es : List (String × String)) :
    ∀ st : UndoState, st.fs.Nodup → ((es.foldl (undoStep raisesOn) st).fs).Nodup := by
  induction es with
  | nil => intro st h; exact h
  | cons e rest ih => intro st h; exact ih _ (undoStep_fs_nodup raisesOn st e h)

theorem undoStep_not_mem (raisesOn : String → Bool) (st : UndoState) (e : String × String)
    (p : String) (hp : p ∉ st.fs) (hne : e.2 ≠ p) : p ∉ (undoStep raisesOn st e).fs := by
  simp only [undoStep]
  split_ifs with h1 h2
  · exact hp
  · intro hmem
    rcases List.mem_append.mp hmem with h | h
    · exact hp (List.mem_of_mem_erase h)
    · exact hne (List.mem_singleton.mp h).symm
  · exact hp

theorem undoFold_not_mem (raisesOn : String → Bool) (es : List (String × String)) :
    ∀ (st : UndoState) (p : String), p ∉ st.fs → (∀ e ∈ es, e.2 ≠ p) →
      p ∉ (es.foldl (undoStep raisesOn) st).fs := by
  induction es with
  | nil => intro st p hp _; exact hp
  | cons e rest ih =>
    intro st p hp he
    exact ih _ p (undoStep_not_mem raisesOn st e p hp (he e (List.mem_cons_self _ _)))
      fun x hx => he x (List.mem_cons_of_mem _ hx)

theorem undoStep_reverted_mono (raisesOn : String → Bool) (st : UndoState)
    (e : String × String) (p : String) (hp : p ∈ st.reverted) :
    p ∈ (undoStep raisesOn st e).reverted := by
  simp only [undoStep]
  split_ifs
  · exact hp
  · exact List.mem_append.mpr (Or.inl hp)
  · exact hp

theorem undoFold_reverted_mono (raisesOn : String → Bool) (es : List (String × String)) :
    ∀ (st : UndoState) (p : String), p ∈ st.reverted →
      p ∈ (es.foldl (undoStep raisesOn) st).reverted := by
  induction es with
  | nil => intro st p hp; exact hp
  | cons e rest ih =>
    intro st p hp
    exact ih _ p (undoStep_reverted_mono raisesOn st e p hp)

theorem dictUpdate_append (upd : List (String × String)) :
    ∀ acc : List (String × String), (∀ e ∈ upd, ∀ a ∈ acc, a.1 ≠ e.1) →
      ((upd.map Prod.fst).Nodup) → dictUpdate acc upd = acc ++ upd := by
  induction upd with
  | nil => intro acc _ _; simp [dictUpdate]
  | cons e rest ih =>
    intro acc hdisj hnd
    obtain ⟨k, v⟩ := e
    have hkrest : k ∉ rest.map Prod.fst ∧ (rest.map Prod.fst).Nodup := by
      rw [List.map_cons] at hnd
      exact List.nodup_cons.mp hnd
    have hacc : updateAssoc acc k v = acc ++ [(k, v)] := by
      unfold updateAssoc
      rw [if_neg]
      intro hany
      rcases List.any_eq_true.mp hany with ⟨a, ha, hak⟩
      exact hdisj (k, v) (List.mem_cons_self _ _) a ha (beq_iff_eq.mp hak)
    show dictUpdate (updateAssoc acc k v) rest = acc ++ (k, v) :: rest
    rw [hacc]
    rw [ih (acc ++ [(k, v)]) ?_ hkrest.2]
    · simp
    · intro x hx a ha
      rcases List.mem_append.mp ha with ha | ha
      · exact hdisj x (List.mem_cons_of_mem _ hx) a ha
      · have ha' : a = (k, v) := by simpa using ha
        subst ha'
        intro hke
        exact hkrest.1 (List.mem_map.mpr ⟨x, hx, hke.symm⟩)

theorem persistLedger_some (hist : List (String × String)) (hne : hist ≠ [])
    (hnd : (hist.map Prod.fst).Nodup) : persistLedger none hist = some hist := by
  simp only [persistLedger]
  rw [if_neg hne]
  rw [show dictUpdate (Option.getD none []) hist = dictUpdate [] hist from rfl]
  rw [dictUpdate_append hist [] (fun e _ a ha => absurd ha (List.not_mem_nil a)) hnd]
  simp

theorem prune_key (backup : List (String × String)) (rev : List String) (n : String)
    (hn : n ∈ rev) :
    (if rev = [] then (some backup : Option (List (String × String)))
      else
        if backup.filter (fun e => decide (e.1 ∉ rev)) = [] then none
        else some (backup.filter fun e => decide (e.1 ∉ rev))) = none ∨
      ∃ l, (if rev = [] then (some backup : Option (List (String × String)))
        else
          if backup.filter (fun e => decide (e.1 ∉ rev)) = [] then none
          else some (backup.filter fun e => decide (e.1 ∉ rev))) = some l ∧ l ≠ [] ∧
        ∀ v, (n, v) ∉ l := by
  rw [if_neg (List.ne_nil_of_mem hn)]
  by_cases hupd : backup.filter (fun e => decide (e.1 ∉ rev)) = []
  · rw [if_pos hupd]
    exact Or.inl rfl
  · rw [if_neg hupd]
    right
    refine ⟨_, rfl, hupd, ?_⟩
    intro v hv
    exact (of_decide_eq_true (List.mem_filter.mp hv).2) hn

/-- Claim C4 (amended, general batch): for every batch of matches over a
duplicate-free filesystem and for every ledger entry `(n, o)` produced by
the rename pass — in particular for every successfully renamed file, whose
entry maps its new path `n` to its original path `o` — if at undo time the
file still sits at `n` and the original path `o` is unoccupied and not
interfered with (no other entry restores onto `o`, no other entry's current
path is `o`, no entry restores onto `n`), then running undo moves the file
back to its exact original relative path `o` and removes the key `n` from
the ledger; the ledger file is then either deleted (when nothing is left,
the empty-ledger case) or rewritten without the key. -/
theorem renamed_file_round_trip (ms : List (PdfFile × String)) (fs0 : List String)
    (st : RenState) (n o : String) (pre post : List (String × String))
    (hst : renamePass (fun _ => false) ms fs0 = st)
    (hnd : fs0.Nodup)
    (hsplit : st.hist = pre ++ (n, o) :: post)
    (hn_fs : n ∈ st.fs)
    (ho_fs : o ∉ st.fs)
    (hpre_o : ∀ e ∈ pre, e.2 ≠ o)
    (hpost_o : ∀ e ∈ post, e.1 ≠ o)
    (hval_n : ∀ e ∈ st.hist, e.2 ≠ n) :
    o ∈ (undo_renames (fun _ => false) st.fs (persistLedger none st.hist)).fs ∧
    n ∉ (undo_renames (fun _ => false) st.fs (persistLedger none st.hist)).fs ∧
    ((undo_renames (fun _ => false) st.fs (persistLedger none st.hist)).ledger = none ∨
      ∃ l, (undo_renames (fun _ => false) st.fs
          (persistLedger none st.hist)).ledger = some l ∧ l ≠ [] ∧ ∀ v, (n, v) ∉ l) := by
  have hkeys : (st.hist.map Prod.fst).Nodup := by
    rw [← hst]
    exact renameFold_keys_nodup (fun _ => false) ms ⟨fs0, [], 0⟩ (by simp)
  have hfsnd : st.fs.Nodup := by
    rw [← hst]
    exact renameFold_fs_nodup (fun _ => false) ms ⟨fs0, [], 0⟩ hnd
  have hne_o_n : o ≠ n := fun h => ho_fs (h ▸ hn_fs)
  have hhist_ne : st.hist ≠ [] := by
    rw [hsplit]
    simp
  have hper : persistLedger none st.hist = some st.hist :=
    persistLedger_some st.hist hhist_ne hkeys
  have hpre_n : ∀ e ∈ pre, e.1 ≠ n := by
    intro e he heq
    rw [hsplit, List.map_append, List.map_cons, List.nodup_append] at hkeys
    exact hkeys.2.2 (List.mem_map.mpr ⟨e, he, heq⟩) (List.mem_cons_self _ _)
  have hR : st.hist.filter (fun e => decide (e.1 ∈ st.fs)) =
      pre.filter (fun e => decide (e.1 ∈ st.fs)) ++
        (n, o) :: post.filter (fun e => decide (e.1 ∈ st.fs)) := by
    rw [hsplit, List.filter_append, List.filter_cons]
    rw [if_pos (decide_eq_true hn_fs)]
  have hRne : pre.filter (fun e => decide (e.1 ∈ st.fs)) ++
      (n, o) :: post.filter (fun e => decide (e.1 ∈ st.fs)) ≠ [] := by simp
  have hst1n : n ∈ ((pre.filter (fun e => decide (e.1 ∈ st.fs))).foldl
      (undoStep (fun _ => false)) ⟨st.fs, [], 0⟩).fs :=
    undoFold_mem (fun _ => false) _ ⟨st.fs, [], 0⟩ n hn_fs
      fun e he => hpre_n e (List.mem_filter.mp he).1
  have hst1o : o ∉ ((pre.filter (fun e => decide (e.1 ∈ st.fs))).foldl
      (undoStep (fun _ => false)) ⟨st.fs, [], 0⟩).fs :=
    undoFold_not_mem (fun _ => false) _ ⟨st.fs, [], 0⟩ o ho_fs
      fun e he => hpre_o e (List.mem_filter.mp he).1
  have hst1nd : ((pre.filter (fun e => decide (e.1 ∈ st.fs))).foldl
      (undoStep (fun _ => false)) ⟨st.fs, [], 0⟩).fs.Nodup :=
    undoFold_fs_nodup (fun _ => false) _ ⟨st.fs, [], 0⟩ hfsnd
  have hstep : undoStep (fun _ => false) ((pre.filter (fun e => decide (e.1 ∈ st.fs))).foldl
      (undoStep (fun _ => false)) ⟨st.fs, [], 0⟩) (n, o) =
      ⟨((pre.filter (fun e => decide (e.1 ∈ st.fs))).foldl
          (undoStep (fun _ => false)) ⟨st.fs, [], 0⟩).fs.erase n ++ [o],
        ((pre.filter (fun e => decide (e.1 ∈ st.fs))).foldl
          (undoStep (fun _ => false)) ⟨st.fs, [], 0⟩).reverted ++ [n],
        ((pre.filter (fun e => decide (e.1 ∈ st.fs))).foldl
          (undoStep (fun _ => false)) ⟨st.fs, [], 0⟩).skipped⟩ := by
    simp only [undoStep]
    rw [if_neg (fun hcon => hst1o hcon.1)]
    rw [if_pos ⟨hst1n, trivial⟩]
  have hn2 : n ∉ ((pre.filter (fun e => decide (e.1 ∈ st.fs))).foldl
      (undoStep (fun _ => false)) ⟨st.fs, [], 0⟩).fs.erase n ++ [o] := by
    intro hmem
    rcases List.mem_append.mp hmem with h | h
    · exact hst1nd.not_mem_erase h
    · exact hne_o_n (List.mem_singleton.mp h).symm
  have hpostval : ∀ e ∈ post.filter (fun e => decide (e.1 ∈ st.fs)), e.2 ≠ n := by
    intro e he
    apply hval_n
    rw [hsplit]
    exact List.mem_append.mpr (Or.inr (List.mem_cons_of_mem _ (List.mem_filter.mp he).1))
  rw [hper]
  simp only [undo_renames]
  rw [if_neg hhist_ne, hR, if_neg hRne]
  dsimp only
  rw [List.foldl_append, List.foldl_cons, hstep]
  refine ⟨?_, ?_, ?_⟩
  · exact undoFold_mem (fun _ => false) _ _ o (by simp)
      fun e he => hpost_o e (List.mem_filter.mp he).1
  · exact undoFold_not_mem (fun _ => false) _ _ n hn2 hpostval
  · apply prune_key
    exact undoFold_reverted_mono (fun _ => false) _ _ n
      (List.mem_append.mpr (Or.inr (List.mem_singleton.mpr rfl)))

theorem renamed_file_round_trip_witness :
    (("a.pdf" ∈ (undo_renames (fun _ => false) ["1a.pdf", "2b.pdf"]
        (persistLedger none [("1a.pdf", "a.pdf"), ("2b.pdf", "b.pdf")])).fs ∧
      "1a.pdf" ∉ (undo_renames (fun _ => false) ["1a.pdf", "2b.pdf"]
        (persistLedger none [("1a.pdf", "a.pdf"), ("2b.pdf", "b.pdf")])).fs ∧
      ((undo_renames (fun _ => false) ["1a.pdf", "2b.pdf"]
          (persistLedger none [("1a.pdf", "a.pdf"), ("2b.pdf", "b.pdf")])).ledger = none ∨
        ∃ l, (undo_renames (fun _ => false) ["1a.pdf", "2b.pdf"]
            (persistLedger none [("1a.pdf", "a.pdf"), ("2b.pdf", "b.pdf")])).ledger = some l ∧
          l ≠ [] ∧ ∀ v, ("1a.pdf", v) ∉ l)) ∧
     ("b.pdf" ∈ (undo_renames (fun _ => false) ["1a.pdf", "2b.pdf"]
        (persistLedger none [("1a.pdf", "a.pdf"), ("2b.pdf", "b.pdf")])).fs ∧
      "2b.pdf" ∉ (undo_renames (fun _ => false) ["1a.pdf", "2b.pdf"]
        (persistLedger none [("1a.pdf", "a.pdf"), ("2b.pdf", "b.pdf")])).fs ∧
      ((undo_renames (fun _ => false) ["1a.pdf", "2b.pdf"]
          (persistLedger none [("1a.pdf", "a.pdf"), ("2b.pdf", "b.pdf")])).ledger = none ∨
        ∃ l, (undo_renames (fun _ => false) ["1a.pdf", "2b.pdf"]
            (persistLedger none [("1a.pdf", "a.pdf"), ("2b.pdf", "b.pdf")])).ledger = some l ∧
          l ≠ [] ∧ ∀ v, ("2b.pdf", v) ∉ l))) :=
  ⟨renamed_file_round_trip [(⟨"", "a"⟩, "1"), (⟨"", "b"⟩, "2")] ["a.pdf", "b.pdf"]
      ⟨["1a.pdf", "2b.pdf"], [("1a.pdf", "a.pdf"), ("2b.pdf", "b.pdf")], 2⟩
      "1a.pdf" "a.pdf" [] [("2b.pdf", "b.pdf")]
      (by decide) (by decide) (by decide) (by decide) (by decide)
      (by decide) (by decide) (by decide),
   renamed_file_round_trip [(⟨"", "a"⟩, "1"), (⟨"", "b"⟩, "2")] ["a.pdf", "b.pdf"]
      ⟨["1a.pdf", "2b.pdf"], [("1a.pdf", "a.pdf"), ("2b.pdf", "b.pdf")], 2⟩
      "2b.pdf" "b.pdf" [("1a.pdf", "a.pdf")] []
      (by decide) (by decide) (by decide) (by decide) (by decide)
      (by decide) (by decide) (by decide)⟩
